import Mathlib

/-!
Shallow embedding of `script.py` (diy-clozemaster): a batch pipeline that
turns English–French sentence pairs into cloze flashcards.

Strings are modelled as Lean `String`s (lists of characters); Python's
`Counter` is modelled as a function `String → Nat` (missing keys read 0,
exactly as `Counter.__getitem__` does) or, where iteration order matters
(`Counter.most_common`), as an association list in insertion order; Python
`set`s are `Finset String`.  Python float division is modelled by exact
division in `ℚ`.  I/O (file reading/writing, `print`) is out of scope; the
functions below embed the pure data transformations.
-/

namespace Script

/-- The ASCII whitespace characters recognised by Python's `str.strip` and
by the regex class `\s` (space, tab, newline, carriage return, vertical
tab, form feed). -/
def isPySpace (c : Char) : Bool :=
  c = ' ' || c = '\t' || c = '\n' || c = '\r' || c = '\x0b' || c = '\x0c'

/-- Python `str.strip()` on a list of characters: drop whitespace from both
ends. -/
def stripChars (l : List Char) : List Char :=
  ((l.dropWhile isPySpace).reverse.dropWhile isPySpace).reverse

/-- Python `str.strip()`. -/
def pyStrip (s : String) : String :=
  ⟨stripChars s.toList⟩

/-- One step of Python `str.replace(old, new)` with explicit fuel (the fuel
is set to the length of the string, which suffices because every step
consumes at least one character when `old` is non-empty): scan left to
right, replacing each non-overlapping occurrence of `old` by `new`. -/
def replaceFuel (old new : List Char) : Nat → List Char → List Char
  | 0, s => s
  | _ + 1, [] => []
  | fuel + 1, c :: rest =>
    if old ≠ [] ∧ old.isPrefixOf (c :: rest) then
      new ++ replaceFuel old new fuel ((c :: rest).drop old.length)
    else
      c :: replaceFuel old new fuel rest

/-- Python `str.replace(old, new)`: replaces every non-overlapping
occurrence of `old` in `s`, scanning left to right.  (Used with non-empty
`old` throughout, matching the script.) -/
def pyReplace (s old new : String) : String :=
  ⟨replaceFuel old.toList new.toList s.toList.length s.toList⟩

/-- The word-boundary class of `WORD_BOUNDARY = re.compile(r"[\s,\.!?\x22]")`:
whitespace, comma, period, exclamation mark, question mark, double quote. -/
def isBoundary (c : Char) : Bool :=
  isPySpace c || c = ',' || c = '.' || c = '!' || c = '?' || c = '"'

/-- Embedding of `re.split(WORD_BOUNDARY, line)` on a list of characters: cut at every
boundary character, keeping empty fragments between adjacent boundaries. -/
def splitBoundary : List Char → List (List Char)
  | [] => [[]]
  | c :: rest =>
    if isBoundary c then
      [] :: splitBoundary rest
    else
      match splitBoundary rest with
      | [] => [[c]]
      | f :: fs => (c :: f) :: fs

/-- Python `str.isdigit()` restricted to ASCII: non-empty and all
characters are decimal digits. -/
def pyIsDigit (l : List Char) : Bool :=
  !l.isEmpty && l.all Char.isDigit

/-- Function `words(line)` from the script: split on the boundary class, strip each
fragment, drop empties, then drop purely numeric tokens. -/
def words (line : String) : List String :=
  let l := (splitBoundary line.toList).map stripChars
  let l := (l.filter (fun w => !w.isEmpty)).map (fun w => (⟨w⟩ : String))
  l.filter (fun w => !pyIsDigit w.toList)

/-- Dataclass `Pair` from the script: an English/French sentence pair with its token
lists. -/
structure Pair where
  eng : String
  eng_words : List String
  fra : String
  fra_words : List String
deriving DecidableEq, Repr

/-- Constant `WORD_LIMIT` from the script. -/
def WORD_LIMIT : Nat := 10

/-- Constant `SKIP_LIST` from the script: French sentences to skip. -/
def SKIP_LIST : List String := ["Eu cheguei ontem."]

/-- One tab-separated input record, reduced to the two fields the script
reads: `row[1]` (English) and `row[3]` (French). -/
structure Row where
  engField : String
  fraField : String
deriving DecidableEq, Repr

/-- The per-record decision of `parse_sentences`: `row[1].strip().lower()`
and `row[3].strip().lower()`, skip if the French text is in `SKIP_LIST`,
tokenize both sides, skip if the French side is longer than `WORD_LIMIT`
words or either side has no proper words, otherwise build the `Pair`. -/
def rowPair (row : Row) : Option Pair :=
  let eng := (pyStrip row.engField).toLower
  let fra := (pyStrip row.fraField).toLower
  if fra ∈ SKIP_LIST then none
  else
    let eng_words := words eng
    let fra_words := words fra
    if WORD_LIMIT < fra_words.length then none
    else if eng_words.isEmpty || fra_words.isEmpty then none
    else some ⟨eng, eng_words, fra, fra_words⟩

/-- The loop of `parse_sentences` over the already-read records (file I/O
itself is out of scope): conditionally append each record's pair, in input
order. -/
def parse_sentences (rows : List Row) : List Pair :=
  rows.foldl
    (fun pairs row =>
      match rowPair row with
      | some p => pairs ++ [p]
      | none => pairs)
    []

/-- Function `language_frequency_table(sentences)` from the script: start from an
empty `Counter` and `update` it with each sentence, so each token's count
grows by its number of occurrences in the sentence.  (The `print`
observability calls are out of scope.) -/
def language_frequency_table (sentences : List (List String)) : String → Nat :=
  sentences.foldl (fun table sentence => fun w => table w + sentence.count w)
    (fun _ => 0)

/-- Constant `MOST_COMMON_WORDS_CUTOFF` from the script (annotated `float` there,
but its value is the integer 5000). -/
def MOST_COMMON_WORDS_CUTOFF : Nat := 5000

/-- Embedding of `Counter.most_common(k)`: the table's items sorted by descending count
— a stable sort, so ties keep the table's insertion order — truncated to
the first `k`.  The table is taken in insertion order as an association
list. -/
def counterMostCommon (c : List (String × Nat)) (k : Nat) : List (String × Nat) :=
  (c.mergeSort (fun a b => decide (b.2 ≤ a.2))).take k

/-- Function `most_common_words` from the script, with the cutoff `k` as an explicit
parameter (the script passes the global `MOST_COMMON_WORDS_CUTOFF`):
the set of the `k` most frequent tokens. -/
def most_common_words (c : List (String × Nat)) (k : Nat) : Finset String :=
  ((counterMostCommon c k).map Prod.fst).toFinset

/-- Function `avg_freq(words, tbl)` from the script: the mean table count of the
given words.  Python's float division is modelled by exact division in
`ℚ` (and `[] ↦ 0` where Python would raise `ZeroDivisionError`; the script
only calls this on non-empty token lists). -/
def avg_freq (ws : List String) (tbl : String → Nat) : ℚ :=
  (ws.map (fun w => (tbl w : ℚ))).sum / ws.length

/-- The sort key of `sort_pairs`: average French word frequency divided by
the French sentence length. -/
def pairScore (tbl : String → Nat) (p : Pair) : ℚ :=
  avg_freq p.fra_words tbl / p.fra_words.length

/-- Function `sort_pairs(pairs, fra_freq)` from the script: `sorted(..., key=...,
reverse=True)`, i.e. the stable sort putting higher scores first and
keeping the input order of equal scores. -/
def sort_pairs (pairs : List Pair) (fra_freq : String → Nat) : List Pair :=
  pairs.mergeSort (fun a b => decide (pairScore fra_freq b ≤ pairScore fra_freq a))

/-- The normalized English text used by `remove_duplicates`: delete every
`!`, `.` and `,`, then strip surrounding whitespace. -/
def strippedEng (p : Pair) : String :=
  pyStrip (pyReplace (pyReplace (pyReplace p.eng "!" "") "." "") "," "")

/-- The normalized French text used by `remove_duplicates`. -/
def strippedFra (p : Pair) : String :=
  pyStrip (pyReplace (pyReplace (pyReplace p.fra "!" "") "." "") "," "")

/-- The loop state of `remove_duplicates`: the retained list, the two
seen-sets, and the skip tally. -/
structure DedupState where
  result : List Pair
  seen_eng : Finset String
  seen_fra : Finset String
  skipped : Nat

/-- One iteration of the `remove_duplicates` loop. -/
def dedupStep (st : DedupState) (pair : Pair) : DedupState :=
  let se := strippedEng pair
  let sf := strippedFra pair
  if se ∈ st.seen_eng then { st with skipped := st.skipped + 1 }
  else if sf ∈ st.seen_fra then { st with skipped := st.skipped + 1 }
  else
    { st with
      result := st.result ++ [pair]
      seen_eng := insert se st.seen_eng
      seen_fra := insert sf st.seen_fra }

/-- The full `remove_duplicates` loop, returning its final state. -/
def dedupRun (pairs : List Pair) : DedupState :=
  pairs.foldl dedupStep ⟨[], ∅, ∅, 0⟩

/-- Function `remove_duplicates(pairs)` from the script.  Note the script's final
statement is `return pairs`: the filtered `result` list the loop builds is
discarded, and the function returns its input unchanged. -/
def remove_duplicates (pairs : List Pair) : List Pair :=
  let _ := dedupRun pairs
  pairs

/-- Constant `CLOZE_LIMIT` from the script. -/
def CLOZE_LIMIT : Nat := 3

/-- Dataclass `Cloze` from the script: an output card. -/
structure Cloze where
  eng : String
  fra : String
deriving DecidableEq, Repr

/-- The scan of `minimize` after its first iteration: keep the current
best, replacing it only on a strictly smaller value, so the left-most
minimizer wins. -/
def minimizeAux (fn : String → Nat) (best : String) : List String → String
  | [] => best
  | x :: xs => if fn x < fn best then minimizeAux fn x xs else minimizeAux fn best xs

/-- Function `minimize(lst, fn)` from the script: the first element of `lst`
attaining the least `fn` value.  The script `assert`s `lst` is non-empty
(an empty list is a fatal error there); we return `""` on `[]`. -/
def minimize (lst : List String) (fn : String → Nat) : String :=
  match lst with
  | [] => ""
  | x :: xs => minimizeAux fn x xs

/-- The cloze marker the script wraps around a word:
`"\x7b\x7b1::" + word + "\x7d\x7d"`. -/
def clozeMarker (w : String) : String := "\x7b\x7b1::" ++ w ++ "\x7d\x7d"

/-- Bump a counter at one key: `Counter.update(\x7bw: 1\x7d)`. -/
def bump (f : String → Nat) (w : String) : String → Nat :=
  fun v => if v = w then f v + 1 else f v

/-- The loop state of `build_clozes`: emitted cards, the two per-word
usage counters, and the two skip tallies. -/
structure BuildState where
  clozes : List Cloze
  cloze_count_eng : String → Nat
  cloze_count_fra : String → Nat
  skipped_limit : Nat
  skipped_freq : Nat

/-- The English-side step of the `build_clozes` loop body: find the rarest
English word; if its usage counter is at `CLOZE_LIMIT`, tally a limit
skip; else if it is not in the common set, tally a frequency skip; else
append a card whose English text has the word replaced (every occurrence,
per Python `str.replace`) by the marker, and bump the counter. -/
def engStep (eng_freq : String → Nat) (eng_common : Finset String)
    (st : BuildState) (pair : Pair) : BuildState :=
  let rarest := minimize pair.eng_words eng_freq
  if st.cloze_count_eng rarest = CLOZE_LIMIT then
    { st with skipped_limit := st.skipped_limit + 1 }
  else if rarest ∉ eng_common then
    { st with skipped_freq := st.skipped_freq + 1 }
  else
    { st with
      clozes := st.clozes ++ [⟨pyReplace pair.eng rarest (clozeMarker rarest), pair.fra⟩]
      cloze_count_eng := bump st.cloze_count_eng rarest }

/-- The French-side step of the `build_clozes` loop body, symmetric to
`engStep`. -/
def fraStep (fra_freq : String → Nat) (fra_common : Finset String)
    (st : BuildState) (pair : Pair) : BuildState :=
  let rarest := minimize pair.fra_words fra_freq
  if st.cloze_count_fra rarest = CLOZE_LIMIT then
    { st with skipped_limit := st.skipped_limit + 1 }
  else if rarest ∉ fra_common then
    { st with skipped_freq := st.skipped_freq + 1 }
  else
    { st with
      clozes := st.clozes ++ [⟨pair.eng, pyReplace pair.fra rarest (clozeMarker rarest)⟩]
      cloze_count_fra := bump st.cloze_count_fra rarest }

/-- One full iteration of the `build_clozes` loop: English side, then
French side. -/
def buildStep (eng_freq fra_freq : String → Nat) (eng_common fra_common : Finset String)
    (st : BuildState) (pair : Pair) : BuildState :=
  fraStep fra_freq fra_common (engStep eng_freq eng_common st pair) pair

/-- Function `build_clozes` from the script, returning the final loop state (the
script returns `clozes`; the counters and tallies are the script's local
state, kept here so invariants about them can be stated). -/
def build_clozes (pairs : List Pair) (eng_freq fra_freq : String → Nat)
    (eng_common fra_common : Finset String) : BuildState :=
  pairs.foldl (buildStep eng_freq fra_freq eng_common fra_common)
    ⟨[], fun _ => 0, fun _ => 0, 0, 0⟩

/-- Function `group(lst, n)` with explicit fuel (one unit per chunk; `lst.length`
suffices when `n ≥ 1` because each chunk consumes at least one element):
successive slices `lst[i : i + n]` for `i = 0, n, 2n, …`. -/
def groupFuel (n : Nat) : Nat → List α → List (List α)
  | _, [] => []
  | 0, _ :: _ => []
  | fuel + 1, x :: xs => (x :: xs).take n :: groupFuel n fuel ((x :: xs).drop n)

/-- Function `group(lst, n)` from the script.  (`n = 0` would make Python's
`range(0, len, 0)` raise `ValueError`; we return `[]` there.) -/
def group (lst : List α) (n : Nat) : List (List α) :=
  if n = 0 then [] else groupFuel n lst.length lst

/-- Modelled from the spec: the claim reads the cloze substitution as
replacing only the FIRST occurrence of the word.  This definition follows
those words — replace the first occurrence of `old` and leave the rest of
the string unchanged — for comparison with `pyReplace`, which the script
actually uses. -/
def replaceFirstFuel (old new : List Char) : Nat → List Char → List Char
  | 0, s => s
  | _ + 1, [] => []
  | fuel + 1, c :: rest =>
    if old ≠ [] ∧ old.isPrefixOf (c :: rest) then
      new ++ (c :: rest).drop old.length
    else
      c :: replaceFirstFuel old new fuel rest

/-- Modelled from the spec: replace only the first occurrence of `old` in
`s` by `new`. -/
def replaceFirst (s old new : String) : String :=
  ⟨replaceFirstFuel old.toList new.toList s.toList.length s.toList⟩

/-- The pair P1 of the deduplication claim. -/
def pairHere1 : Pair :=
  ⟨"I am here.", ["I", "am", "here"], "Je suis ici.", ["Je", "suis", "ici"]⟩

/-- The pair P2 of the deduplication claim: P1 with `.` replaced by `!`. -/
def pairHere2 : Pair :=
  ⟨"I am here!", ["I", "am", "here"], "Je suis ici!", ["Je", "suis", "ici"]⟩

/-- A pair whose English text contains its rarest word twice. -/
def pairDouble : Pair := ⟨"a a", ["a", "a"], "x", ["x"]⟩

/-- A one-word pair used to exercise the cloze reuse cap. -/
def pairW : Pair := ⟨"w", ["w"], "y", ["y"]⟩

/-- A concrete pair for the sorting claim. -/
def pairQ1 : Pair := ⟨"e1", ["q"], "f1", ["q"]⟩

/-- A second concrete pair for the sorting claim, with the same score as
`pairQ1` under a constant frequency table. -/
def pairQ2 : Pair := ⟨"e2", ["r"], "f2", ["r"]⟩

/-- A concrete input record for the loader claim. -/
def rowEx : Row := ⟨" Hello there. ", "Bonjour toi."⟩

/-!  ## Theorems  -/

/-- Every fragment produced by `splitBoundary` contains no boundary
character. -/
theorem splitBoundary_chars :
    ∀ (l : List Char), ∀ f ∈ splitBoundary l, ∀ c ∈ f, isBoundary c = false := by
  intro l
  induction l with
  | nil =>
    intro f hf c hc
    simp only [splitBoundary, List.mem_singleton] at hf
    subst hf
    simp at hc
  | cons ch rest ih =>
    intro f hf c hc
    simp only [splitBoundary] at hf
    by_cases hb : isBoundary ch
    · rw [if_pos hb] at hf
      rcases List.mem_cons.mp hf with h | h
      · subst h; simp at hc
      · exact ih f h c hc
    · rw [if_neg hb] at hf
      cases hsp : splitBoundary rest with
      | nil =>
        rw [hsp] at hf
        simp only [List.mem_singleton] at hf
        subst hf
        simp only [List.mem_singleton] at hc
        subst hc
        simpa using hb
      | cons f0 fs =>
        rw [hsp] at hf
        rcases List.mem_cons.mp hf with h | h
        · subst h
          rcases List.mem_cons.mp hc with h' | h'
          · subst h'; simpa using hb
          · exact ih f0 (by rw [hsp]; exact List.mem_cons_self _ _) c h'
        · exact ih f (by rw [hsp]; exact List.mem_cons.mpr (Or.inr h)) c hc

/-- Stripping only removes characters. -/
theorem mem_stripChars {c : Char} {l : List Char} (h : c ∈ stripChars l) : c ∈ l := by
  unfold stripChars at h
  rw [List.mem_reverse] at h
  have h1 : c ∈ (l.dropWhile isPySpace).reverse := (List.dropWhile_sublist _).subset h
  rw [List.mem_reverse] at h1
  exact (List.dropWhile_sublist _).subset h1

/-- Unfolding of membership in `words`: a token is a stripped fragment of
the boundary split, non-empty and not all digits. -/
theorem mem_words_iff {s t : String} :
    t ∈ words s ↔
      (∃ f ∈ splitBoundary s.toList, stripChars f = t.toList) ∧
        t.toList ≠ [] ∧ pyIsDigit t.toList = false := by
  unfold words
  simp only [List.mem_filter, List.mem_map, Bool.not_eq_true']
  constructor
  · rintro ⟨⟨w, ⟨hw, hwne⟩, rfl⟩, hd⟩
    rcases hw with ⟨f, hf, rfl⟩
    refine ⟨⟨f, hf, rfl⟩, ?_, hd⟩
    simpa [List.isEmpty_iff] using hwne
  · rintro ⟨⟨f, hf, hsf⟩, hne, hd⟩
    refine ⟨⟨t.toList, ⟨⟨f, hf, hsf⟩, ?_⟩, rfl⟩, hd⟩
    simpa [List.isEmpty_iff] using hne

/-- Helper for token order: filtering strings built from character lists
is a sublist of the underlying lists. -/
theorem map_toList_filter_sublist (q : String → Bool) :
    ∀ (X : List (List Char)),
      List.Sublist (((X.map (fun w => (⟨w⟩ : String))).filter q).map (fun t => t.toList)) X := by
  intro X
  induction X with
  | nil => simp
  | cons w X ih =>
    simp only [List.map_cons, List.filter_cons]
    by_cases hq : q ⟨w⟩
    · rw [if_pos hq]
      simpa using List.Sublist.cons₂ w ih
    · rw [if_neg hq]
      exact List.Sublist.cons w ih

/-- C6.  Tokenizer contract: every token of `words s` is non-empty,
contains no boundary character (so the input was split on exactly the
boundary class, with fragments trimmed), and is not purely numeric; the
tokens appear in the order of the (stripped) fragments of the boundary
split; and the two examples from the spec hold. -/
theorem tokenizer_contract :
    (∀ (s t : String), t ∈ words s →
        t ≠ "" ∧ (∀ c ∈ t.toList, isBoundary c = false) ∧ pyIsDigit t.toList = false) ∧
    (∀ s : String,
        List.Sublist ((words s).map (fun t => t.toList)) ((splitBoundary s.toList).map stripChars)) ∧
    words "Il fait beau, non?" = ["Il", "fait", "beau", "non"] ∧
    words "Room 101" = ["Room"] := by
  refine ⟨?_, ?_, by decide, by decide⟩
  · intro s t ht
    rcases mem_words_iff.mp ht with ⟨⟨f, hf, hsf⟩, hne, hd⟩
    refine ⟨?_, ?_, hd⟩
    · intro h
      apply hne
      rw [h]
      rfl
    · intro c hc
      apply splitBoundary_chars s.toList f hf
      apply mem_stripChars
      rw [hsf]
      exact hc
  · intro s
    unfold words
    have h1 := map_toList_filter_sublist (fun w => !pyIsDigit w.toList)
      (((splitBoundary s.toList).map stripChars).filter (fun w => !w.isEmpty))
    exact h1.trans (List.filter_sublist _)

/-- Witness for C6 at the spec's example. -/
theorem tokenizer_contract_witness : ("Il" : String) ≠ "" :=
  (tokenizer_contract.1 "Il fait beau, non?" "Il" (by decide)).1

/-- C1 (code bug).  On the claim's own example — P2 duplicates P1 after
normalization — `remove_duplicates` nevertheless returns the input list
unchanged, P2 included: the script's loop builds the filtered `result`
(shown in the third conjunct to be `[P1]`, exactly what the claim
describes) but its final statement returns `pairs` instead, discarding
the computation. -/
theorem remove_duplicates_returns_input :
    remove_duplicates [pairHere1, pairHere2] = [pairHere1, pairHere2] ∧
    pairHere2 ∈ remove_duplicates [pairHere1, pairHere2] ∧
    (dedupRun [pairHere1, pairHere2]).result = [pairHere1] ∧
    (dedupRun [pairHere1, pairHere2]).skipped = 1 := by
  refine ⟨rfl, by decide, by decide, by decide⟩

/-- C2 counterexample.  For the pair `("a a", ["a","a"], "x", ["x"])` the
emitted English-side card replaces BOTH textual occurrences of the rarest
word `"a"` (Python `str.replace` replaces every occurrence), so its text
differs from the claim's first-occurrence-only replacement and contains
two marked spans, not one. -/
theorem cloze_replaces_every_occurrence :
    (build_clozes [pairDouble] (fun _ => 1) (fun _ => 1) {"a"} ∅).clozes =
      [⟨"\x7b\x7b1::a\x7d\x7d \x7b\x7b1::a\x7d\x7d", "x"⟩] ∧
    replaceFirst pairDouble.eng "a" (clozeMarker "a") = "\x7b\x7b1::a\x7d\x7d a" ∧
    ("\x7b\x7b1::a\x7d\x7d \x7b\x7b1::a\x7d\x7d" : String) ≠ "\x7b\x7b1::a\x7d\x7d a" := by
  refine ⟨by decide, by decide, by decide⟩

/-- Case analysis of the English-side step: either nothing is emitted and
the card list is unchanged, or the rarest English word is in the common
set and exactly the substituted card is appended. -/
theorem engStep_clozes_cases (ef : String → Nat) (ec : Finset String)
    (st : BuildState) (p : Pair) :
    (engStep ef ec st p).clozes = st.clozes ∨
      (minimize p.eng_words ef ∈ ec ∧
        (engStep ef ec st p).clozes = st.clozes ++
          [⟨pyReplace p.eng (minimize p.eng_words ef)
              (clozeMarker (minimize p.eng_words ef)), p.fra⟩]) := by
  unfold engStep
  by_cases h1 : st.cloze_count_eng (minimize p.eng_words ef) = CLOZE_LIMIT
  · left; simp [h1]
  · by_cases h2 : minimize p.eng_words ef ∈ ec
    · right; exact ⟨h2, by simp [h1, h2]⟩
    · left; simp [h1, h2]

/-- Case analysis of the French-side step, symmetric to
`engStep_clozes_cases`. -/
theorem fraStep_clozes_cases (ff : String → Nat) (fc : Finset String)
    (st : BuildState) (p : Pair) :
    (fraStep ff fc st p).clozes = st.clozes ∨
      (minimize p.fra_words ff ∈ fc ∧
        (fraStep ff fc st p).clozes = st.clozes ++
          [⟨p.eng, pyReplace p.fra (minimize p.fra_words ff)
              (clozeMarker (minimize p.fra_words ff))⟩]) := by
  unfold fraStep
  by_cases h1 : st.cloze_count_fra (minimize p.fra_words ff) = CLOZE_LIMIT
  · left; simp [h1]
  · by_cases h2 : minimize p.fra_words ff ∈ fc
    · right; exact ⟨h2, by simp [h1, h2]⟩
    · left; simp [h1, h2]

/-- Every card present after running the `build_clozes` loop from an
arbitrary state was either already there or is the English- or
French-side substitution card of some input pair whose rarest word is in
the corresponding common set. -/
theorem clozes_mem_go (ef ff : String → Nat) (ec fc : Finset String) :
    ∀ (pairs : List Pair) (st : BuildState) (c : Cloze),
      c ∈ (pairs.foldl (buildStep ef ff ec fc) st).clozes →
      c ∈ st.clozes ∨ ∃ p ∈ pairs,
        (minimize p.eng_words ef ∈ ec ∧
          c = ⟨pyReplace p.eng (minimize p.eng_words ef)
                (clozeMarker (minimize p.eng_words ef)), p.fra⟩) ∨
        (minimize p.fra_words ff ∈ fc ∧
          c = ⟨p.eng, pyReplace p.fra (minimize p.fra_words ff)
                (clozeMarker (minimize p.fra_words ff))⟩) := by
  intro pairs
  induction pairs with
  | nil => intro st c hc; exact Or.inl hc
  | cons p rest ih =>
    intro st c hc
    rw [List.foldl_cons] at hc
    rcases ih _ c hc with h | ⟨p', hp', hform⟩
    · -- the card was present after this iteration's step
      have hstep : c ∈ (engStep ef ec st p).clozes ∨
          (minimize p.fra_words ff ∈ fc ∧
            c = ⟨p.eng, pyReplace p.fra (minimize p.fra_words ff)
                  (clozeMarker (minimize p.fra_words ff))⟩) := by
        rcases fraStep_clozes_cases ff fc (engStep ef ec st p) p with hf | ⟨hm, hf⟩
        · rw [buildStep, hf] at h; exact Or.inl h
        · rw [buildStep, hf] at h
          rcases List.mem_append.mp h with h' | h'
          · exact Or.inl h'
          · exact Or.inr ⟨hm, List.mem_singleton.mp h'⟩
      rcases hstep with h' | ⟨hm, rfl⟩
      · rcases engStep_clozes_cases ef ec st p with he | ⟨hm, he⟩
        · rw [he] at h'; exact Or.inl h'
        · rw [he] at h'
          rcases List.mem_append.mp h' with h'' | h''
          · exact Or.inl h''
          · exact Or.inr ⟨p, List.mem_cons_self _ _,
              Or.inl ⟨hm, List.mem_singleton.mp h''⟩⟩
      · exact Or.inr ⟨p, List.mem_cons_self _ _, Or.inr ⟨hm, rfl⟩⟩
    · exact Or.inr ⟨p', List.mem_cons.mpr (Or.inr hp'), hform⟩

/-- C2 (amended).  Every emitted English-side card's English text is the
pair's English text with EVERY non-overlapping occurrence of the rarest
English word replaced by the marked span (Python `str.replace`), French
text unchanged; symmetrically for French-side cards. -/
theorem cloze_card_text (pairs : List Pair) (ef ff : String → Nat)
    (ec fc : Finset String)
    (_hne : ∀ p ∈ pairs, p.eng_words ≠ [] ∧ p.fra_words ≠ []) :
    ∀ c ∈ (build_clozes pairs ef ff ec fc).clozes,
      ∃ p ∈ pairs,
        (c.eng = pyReplace p.eng (minimize p.eng_words ef)
            (clozeMarker (minimize p.eng_words ef)) ∧ c.fra = p.fra) ∨
        (c.eng = p.eng ∧
          c.fra = pyReplace p.fra (minimize p.fra_words ff)
            (clozeMarker (minimize p.fra_words ff))) := by
  intro c hc
  rcases clozes_mem_go ef ff ec fc pairs _ c hc with h | ⟨p, hp, hform⟩
  · simp at h
  · refine ⟨p, hp, ?_⟩
    rcases hform with ⟨-, rfl⟩ | ⟨-, rfl⟩
    · exact Or.inl ⟨rfl, rfl⟩
    · exact Or.inr ⟨rfl, rfl⟩

/-- Witness for the amended C2 at the concrete double-occurrence pair. -/
theorem cloze_card_text_witness :
    ∃ p ∈ [pairDouble],
      (("\x7b\x7b1::a\x7d\x7d \x7b\x7b1::a\x7d\x7d" : String) =
          pyReplace p.eng (minimize p.eng_words (fun _ => 1))
            (clozeMarker (minimize p.eng_words (fun _ => 1))) ∧
        ("x" : String) = p.fra) ∨
      (("\x7b\x7b1::a\x7d\x7d \x7b\x7b1::a\x7d\x7d" : String) = p.eng ∧
        ("x" : String) = pyReplace p.fra (minimize p.fra_words (fun _ => 1))
          (clozeMarker (minimize p.fra_words (fun _ => 1)))) :=
  cloze_card_text [pairDouble] (fun _ => 1) (fun _ => 1) {"a"} ∅
    (by decide) ⟨"\x7b\x7b1::a\x7d\x7d \x7b\x7b1::a\x7d\x7d", "x"⟩ (by decide)

/-- C4.  A card is only ever emitted for a word inside the corresponding
common set: every card in the output of `build_clozes` is the
substitution card of some input pair whose rarest word on that side IS a
member of the common set of its language. -/
theorem cloze_word_in_common_set (pairs : List Pair) (ef ff : String → Nat)
    (ec fc : Finset String)
    (_hne : ∀ p ∈ pairs, p.eng_words ≠ [] ∧ p.fra_words ≠ []) :
    ∀ c ∈ (build_clozes pairs ef ff ec fc).clozes,
      ∃ p ∈ pairs,
        (minimize p.eng_words ef ∈ ec ∧
          c = ⟨pyReplace p.eng (minimize p.eng_words ef)
                (clozeMarker (minimize p.eng_words ef)), p.fra⟩) ∨
        (minimize p.fra_words ff ∈ fc ∧
          c = ⟨p.eng, pyReplace p.fra (minimize p.fra_words ff)
                (clozeMarker (minimize p.fra_words ff))⟩) := by
  intro c hc
  rcases clozes_mem_go ef ff ec fc pairs _ c hc with h | h
  · simp at h
  · exact h

/-- Witness for C4 at the concrete double-occurrence pair. -/
theorem cloze_word_in_common_set_witness :
    ∃ p ∈ [pairDouble],
      (minimize p.eng_words (fun _ => 1) ∈ ({"a"} : Finset String) ∧
        (⟨"\x7b\x7b1::a\x7d\x7d \x7b\x7b1::a\x7d\x7d", "x"⟩ : Cloze) =
          ⟨pyReplace p.eng (minimize p.eng_words (fun _ => 1))
            (clozeMarker (minimize p.eng_words (fun _ => 1))), p.fra⟩) ∨
      (minimize p.fra_words (fun _ => 1) ∈ (∅ : Finset String) ∧
        (⟨"\x7b\x7b1::a\x7d\x7d \x7b\x7b1::a\x7d\x7d", "x"⟩ : Cloze) =
          ⟨p.eng, pyReplace p.fra (minimize p.fra_words (fun _ => 1))
            (clozeMarker (minimize p.fra_words (fun _ => 1)))⟩) :=
  cloze_word_in_common_set [pairDouble] (fun _ => 1) (fun _ => 1) {"a"} ∅
    (by decide) ⟨"\x7b\x7b1::a\x7d\x7d \x7b\x7b1::a\x7d\x7d", "x"⟩ (by decide)

/-- The French-side step never touches the English usage counter. -/
theorem fraStep_count_eng_eq (ff : String → Nat) (fc : Finset String)
    (st : BuildState) (p : Pair) :
    (fraStep ff fc st p).cloze_count_eng = st.cloze_count_eng := by
  simp only [fraStep]
  split_ifs <;> rfl

/-- The English-side step never touches the French usage counter. -/
theorem engStep_count_fra_eq (ef : String → Nat) (ec : Finset String)
    (st : BuildState) (p : Pair) :
    (engStep ef ec st p).cloze_count_fra = st.cloze_count_fra := by
  simp only [engStep]
  split_ifs <;> rfl

/-- The English-side step leaves the usage count of any word other than
the selected one unchanged. -/
theorem engStep_count_eng_ne (ef : String → Nat) (ec : Finset String)
    (st : BuildState) (p : Pair) {w : String} (h : minimize p.eng_words ef ≠ w) :
    (engStep ef ec st p).cloze_count_eng w = st.cloze_count_eng w := by
  simp only [engStep]
  split_ifs <;> simp [bump, Ne.symm h]

/-- When the selected English word is the tracked word `w` and `w` is in
the common set, the step either tallies a limit skip (counter already at
the cap) or emits and bumps the counter by one. -/
theorem engStep_count_eng_sel (ef : String → Nat) (ec : Finset String)
    (st : BuildState) (p : Pair) {w : String}
    (hsel : minimize p.eng_words ef = w) (hw : w ∈ ec) :
    (st.cloze_count_eng w = CLOZE_LIMIT ∧
      (engStep ef ec st p).cloze_count_eng w = st.cloze_count_eng w ∧
      (engStep ef ec st p).skipped_limit = st.skipped_limit + 1) ∨
    (st.cloze_count_eng w ≠ CLOZE_LIMIT ∧
      (engStep ef ec st p).cloze_count_eng w = st.cloze_count_eng w + 1 ∧
      (engStep ef ec st p).skipped_limit = st.skipped_limit) := by
  simp only [engStep, hsel]
  by_cases hc : st.cloze_count_eng w = CLOZE_LIMIT
  · left
    refine ⟨hc, ?_, ?_⟩ <;> simp [hc]
  · right
    refine ⟨hc, ?_, ?_⟩ <;> simp [hc, hw, bump]

/-- The English-side step never decreases the limit-skip tally. -/
theorem engStep_sl_le (ef : String → Nat) (ec : Finset String)
    (st : BuildState) (p : Pair) :
    st.skipped_limit ≤ (engStep ef ec st p).skipped_limit := by
  simp only [engStep]
  split_ifs
  · exact Nat.le_succ _
  · exact Nat.le_refl _
  · exact Nat.le_refl _

/-- The French-side step never decreases the limit-skip tally. -/
theorem fraStep_sl_le (ff : String → Nat) (fc : Finset String)
    (st : BuildState) (p : Pair) :
    st.skipped_limit ≤ (fraStep ff fc st p).skipped_limit := by
  simp only [fraStep]
  split_ifs
  · exact Nat.le_succ _
  · exact Nat.le_refl _
  · exact Nat.le_refl _

/-- The English-side step keeps every English usage count at or below the
cap. -/
theorem engStep_counts_le (ef : String → Nat) (ec : Finset String)
    (st : BuildState) (p : Pair)
    (h : ∀ v, st.cloze_count_eng v ≤ CLOZE_LIMIT) :
    ∀ v, (engStep ef ec st p).cloze_count_eng v ≤ CLOZE_LIMIT := by
  intro v
  simp only [engStep]
  split_ifs with h1 h2
  · exact h v
  · simp only [bump]
    split_ifs with hv
    · subst hv
      have := h (minimize p.eng_words ef)
      omega
    · exact h v
  · exact h v

/-- The French-side step keeps every French usage count at or below the
cap. -/
theorem fraStep_counts_le (ff : String → Nat) (fc : Finset String)
    (st : BuildState) (p : Pair)
    (h : ∀ v, st.cloze_count_fra v ≤ CLOZE_LIMIT) :
    ∀ v, (fraStep ff fc st p).cloze_count_fra v ≤ CLOZE_LIMIT := by
  intro v
  simp only [fraStep]
  split_ifs with h1 h2
  · exact h v
  · simp only [bump]
    split_ifs with hv
    · subst hv
      have := h (minimize p.fra_words ff)
      omega
    · exact h v
  · exact h v

/-- Running the `build_clozes` loop from any state keeps every usage
count of both languages at or below the cap. -/
theorem go_counts_le (ef ff : String → Nat) (ec fc : Finset String) :
    ∀ (pairs : List Pair) (st : BuildState),
      (∀ v, st.cloze_count_eng v ≤ CLOZE_LIMIT ∧ st.cloze_count_fra v ≤ CLOZE_LIMIT) →
      ∀ v, (pairs.foldl (buildStep ef ff ec fc) st).cloze_count_eng v ≤ CLOZE_LIMIT ∧
        (pairs.foldl (buildStep ef ff ec fc) st).cloze_count_fra v ≤ CLOZE_LIMIT := by
  intro pairs
  induction pairs with
  | nil => intro st h v; exact h v
  | cons p rest ih =>
    intro st h v
    rw [List.foldl_cons]
    refine ih _ (fun u => ⟨?_, ?_⟩) v
    · rw [buildStep, fraStep_count_eng_eq]
      exact engStep_counts_le ef ec st p (fun x => (h x).1) u
    · rw [buildStep]
      refine fraStep_counts_le ff fc _ p (fun x => ?_) u
      rw [engStep_count_fra_eq]
      exact (h x).2

/-- Main accounting lemma for the reuse cap: running the loop from a state
whose usage count for `w` (a common-set word) is below the cap, the final
count for `w` is the old count plus the number of pairs selecting `w`,
truncated at the cap, and every selection beyond the cap adds one to the
limit-skip tally. -/
theorem go_count_spec (ef ff : String → Nat) (ec fc : Finset String)
    (w : String) (hw : w ∈ ec) :
    ∀ (pairs : List Pair) (st : BuildState),
      st.cloze_count_eng w ≤ CLOZE_LIMIT →
      (pairs.foldl (buildStep ef ff ec fc) st).cloze_count_eng w =
        min (st.cloze_count_eng w +
            (pairs.filter (fun p => decide (minimize p.eng_words ef = w))).length)
          CLOZE_LIMIT ∧
      st.skipped_limit +
          (st.cloze_count_eng w +
              (pairs.filter (fun p => decide (minimize p.eng_words ef = w))).length -
            CLOZE_LIMIT) ≤
        (pairs.foldl (buildStep ef ff ec fc) st).skipped_limit := by
  intro pairs
  induction pairs with
  | nil =>
    intro st hle
    simp only [List.foldl_nil, List.filter_nil, List.length_nil]
    omega
  | cons p rest ih =>
    intro st hle
    rw [List.foldl_cons, List.filter_cons]
    have hfc : (buildStep ef ff ec fc st p).cloze_count_eng w =
        (engStep ef ec st p).cloze_count_eng w := by
      rw [buildStep, fraStep_count_eng_eq]
    have hfs : (engStep ef ec st p).skipped_limit ≤
        (buildStep ef ff ec fc st p).skipped_limit := by
      rw [buildStep]
      exact fraStep_sl_le ff fc _ p
    by_cases hsel : minimize p.eng_words ef = w
    · rw [if_pos (by simpa using hsel)]
      rcases engStep_count_eng_sel ef ec st p hsel hw with
        ⟨hc, hcount, hsl⟩ | ⟨hc, hcount, hsl⟩
      · have hle2 : (buildStep ef ff ec fc st p).cloze_count_eng w ≤ CLOZE_LIMIT := by
          rw [hfc, hcount]; exact hle
        obtain ⟨ihc, ihs⟩ := ih (buildStep ef ff ec fc st p) hle2
        rw [hfc, hcount] at ihc ihs
        have hsl2 : st.skipped_limit + 1 ≤ (buildStep ef ff ec fc st p).skipped_limit := by
          rw [← hsl]; exact hfs
        constructor
        · rw [ihc]
          simp only [List.length_cons]
          omega
        · simp only [List.length_cons]
          omega
      · have hle2 : (buildStep ef ff ec fc st p).cloze_count_eng w ≤ CLOZE_LIMIT := by
          rw [hfc, hcount]
          omega
        obtain ⟨ihc, ihs⟩ := ih (buildStep ef ff ec fc st p) hle2
        rw [hfc, hcount] at ihc ihs
        have hsl2 : st.skipped_limit ≤ (buildStep ef ff ec fc st p).skipped_limit := by
          rw [← hsl]; exact hfs
        constructor
        · rw [ihc]
          simp only [List.length_cons]
          omega
        · simp only [List.length_cons]
          omega
    · rw [if_neg (by simpa using hsel)]
      have hcount : (buildStep ef ff ec fc st p).cloze_count_eng w =
          st.cloze_count_eng w := by
        rw [hfc]
        exact engStep_count_eng_ne ef ec st p hsel
      have hsl2 : st.skipped_limit ≤ (buildStep ef ff ec fc st p).skipped_limit := by
        exact (engStep_sl_le ef ec st p).trans hfs
      obtain ⟨ihc, ihs⟩ := ih (buildStep ef ff ec fc st p) (by rw [hcount]; exact hle)
      rw [hcount] at ihc ihs
      exact ⟨ihc, by omega⟩

/-- The French-side step leaves the usage count of any word other than
the selected one unchanged. -/
theorem fraStep_count_fra_ne (ff : String → Nat) (fc : Finset String)
    (st : BuildState) (p : Pair) {w : String} (h : minimize p.fra_words ff ≠ w) :
    (fraStep ff fc st p).cloze_count_fra w = st.cloze_count_fra w := by
  simp only [fraStep]
  split_ifs <;> simp [bump, Ne.symm h]

/-- When the selected French word is the tracked word `w` and `w` is in
the common set, the step either tallies a limit skip (counter already at
the cap) or emits and bumps the counter by one. -/
theorem fraStep_count_fra_sel (ff : String → Nat) (fc : Finset String)
    (st : BuildState) (p : Pair) {w : String}
    (hsel : minimize p.fra_words ff = w) (hw : w ∈ fc) :
    (st.cloze_count_fra w = CLOZE_LIMIT ∧
      (fraStep ff fc st p).cloze_count_fra w = st.cloze_count_fra w ∧
      (fraStep ff fc st p).skipped_limit = st.skipped_limit + 1) ∨
    (st.cloze_count_fra w ≠ CLOZE_LIMIT ∧
      (fraStep ff fc st p).cloze_count_fra w = st.cloze_count_fra w + 1 ∧
      (fraStep ff fc st p).skipped_limit = st.skipped_limit) := by
  simp only [fraStep, hsel]
  by_cases hc : st.cloze_count_fra w = CLOZE_LIMIT
  · left
    refine ⟨hc, ?_, ?_⟩ <;> simp [hc]
  · right
    refine ⟨hc, ?_, ?_⟩ <;> simp [hc, hw, bump]

/-- French-side counterpart of `go_count_spec`: running the loop from a
state whose French usage count for `w` (a French common-set word) is
below the cap, the final French count for `w` is the old count plus the
number of pairs selecting `w` on the French side, truncated at the cap,
and every selection beyond the cap adds one to the limit-skip tally. -/
theorem go_count_spec_fra (ef ff : String → Nat) (ec fc : Finset String)
    (w : String) (hw : w ∈ fc) :
    ∀ (pairs : List Pair) (st : BuildState),
      st.cloze_count_fra w ≤ CLOZE_LIMIT →
      (pairs.foldl (buildStep ef ff ec fc) st).cloze_count_fra w =
        min (st.cloze_count_fra w +
            (pairs.filter (fun p => decide (minimize p.fra_words ff = w))).length)
          CLOZE_LIMIT ∧
      st.skipped_limit +
          (st.cloze_count_fra w +
              (pairs.filter (fun p => decide (minimize p.fra_words ff = w))).length -
            CLOZE_LIMIT) ≤
        (pairs.foldl (buildStep ef ff ec fc) st).skipped_limit := by
  intro pairs
  induction pairs with
  | nil =>
    intro st hle
    simp only [List.foldl_nil, List.filter_nil, List.length_nil]
    omega
  | cons p rest ih =>
    intro st hle
    rw [List.foldl_cons, List.filter_cons]
    have hc1 : (engStep ef ec st p).cloze_count_fra = st.cloze_count_fra :=
      engStep_count_fra_eq ef ec st p
    have hs1 : st.skipped_limit ≤ (engStep ef ec st p).skipped_limit :=
      engStep_sl_le ef ec st p
    have hbd : buildStep ef ff ec fc st p = fraStep ff fc (engStep ef ec st p) p := rfl
    by_cases hsel : minimize p.fra_words ff = w
    · rw [if_pos (by simpa using hsel)]
      rcases fraStep_count_fra_sel ff fc (engStep ef ec st p) p hsel hw with
        ⟨hc, hcount, hsl⟩ | ⟨hc, hcount, hsl⟩
      · have hx : (buildStep ef ff ec fc st p).cloze_count_fra w =
            st.cloze_count_fra w := by
          rw [hbd, hcount, hc1]
        have hle2 : (buildStep ef ff ec fc st p).cloze_count_fra w ≤ CLOZE_LIMIT := by
          rw [hx]; exact hle
        obtain ⟨ihc, ihs⟩ := ih (buildStep ef ff ec fc st p) hle2
        rw [hx] at ihc ihs
        rw [hc1] at hc
        have hsl2 : st.skipped_limit + 1 ≤ (buildStep ef ff ec fc st p).skipped_limit := by
          rw [hbd, hsl]
          omega
        constructor
        · rw [ihc]
          simp only [List.length_cons]
          omega
        · simp only [List.length_cons]
          omega
      · have hx : (buildStep ef ff ec fc st p).cloze_count_fra w =
            st.cloze_count_fra w + 1 := by
          rw [hbd, hcount, hc1]
        rw [hc1] at hc
        have hle2 : (buildStep ef ff ec fc st p).cloze_count_fra w ≤ CLOZE_LIMIT := by
          rw [hx]
          omega
        obtain ⟨ihc, ihs⟩ := ih (buildStep ef ff ec fc st p) hle2
        rw [hx] at ihc ihs
        have hsl2 : st.skipped_limit ≤ (buildStep ef ff ec fc st p).skipped_limit := by
          rw [hbd, hsl]
          omega
        constructor
        · rw [ihc]
          simp only [List.length_cons]
          omega
        · simp only [List.length_cons]
          omega
    · rw [if_neg (by simpa using hsel)]
      have hx : (buildStep ef ff ec fc st p).cloze_count_fra w =
          st.cloze_count_fra w := by
        rw [hbd, fraStep_count_fra_ne ff fc (engStep ef ec st p) p hsel, hc1]
      have hsl2 : st.skipped_limit ≤ (buildStep ef ff ec fc st p).skipped_limit := by
        rw [hbd]
        exact hs1.trans (fraStep_sl_le ff fc _ p)
      obtain ⟨ihc, ihs⟩ := ih (buildStep ef ff ec fc st p) (by rw [hx]; exact hle)
      rw [hx] at ihc ihs
      exact ⟨ihc, by omega⟩

/-- Each English-side step produces exactly one event: one appended card,
one limit skip, or one frequency skip. -/
theorem engStep_events (ef : String → Nat) (ec : Finset String)
    (st : BuildState) (p : Pair) :
    (engStep ef ec st p).clozes.length + (engStep ef ec st p).skipped_limit +
        (engStep ef ec st p).skipped_freq
      = st.clozes.length + st.skipped_limit + st.skipped_freq + 1 := by
  simp only [engStep]
  split_ifs <;> simp [List.length_append] <;> omega

/-- Each French-side step produces exactly one event: one appended card,
one limit skip, or one frequency skip. -/
theorem fraStep_events (ff : String → Nat) (fc : Finset String)
    (st : BuildState) (p : Pair) :
    (fraStep ff fc st p).clozes.length + (fraStep ff fc st p).skipped_limit +
        (fraStep ff fc st p).skipped_freq
      = st.clozes.length + st.skipped_limit + st.skipped_freq + 1 := by
  simp only [fraStep]
  split_ifs <;> simp [List.length_append] <;> omega

/-- Event conservation: each pair contributes exactly two events (its
English side and its French side), each of which either appends one card
or increments one of the two skip tallies. -/
theorem go_events (ef ff : String → Nat) (ec fc : Finset String) :
    ∀ (pairs : List Pair) (st : BuildState),
      (pairs.foldl (buildStep ef ff ec fc) st).clozes.length +
          (pairs.foldl (buildStep ef ff ec fc) st).skipped_limit +
          (pairs.foldl (buildStep ef ff ec fc) st).skipped_freq
        = st.clozes.length + st.skipped_limit + st.skipped_freq + 2 * pairs.length := by
  intro pairs
  induction pairs with
  | nil =>
    intro st
    simp
  | cons p rest ih =>
    intro st
    rw [List.foldl_cons]
    have hb : (buildStep ef ff ec fc st p).clozes.length +
        (buildStep ef ff ec fc st p).skipped_limit +
        (buildStep ef ff ec fc st p).skipped_freq
        = st.clozes.length + st.skipped_limit + st.skipped_freq + 2 := by
      have he := engStep_events ef ec st p
      have hf := fraStep_events ff fc (engStep ef ec st p) p
      rw [show buildStep ef ff ec fc st p = fraStep ff fc (engStep ef ec st p) p from rfl]
      omega
    rw [ih (buildStep ef ff ec fc st p)]
    simp only [List.length_cons]
    omega

/-- C3.  Per-word cloze reuse cap, for a word of either language on its
language side: if a word `w` of the English (resp. French) common set is
the rarest-word selection on that side for exactly 5 input pairs, then
exactly 3 cards are emitted for `w` — the usage counter, bumped once per
card appended for `w`, ends at 3 = `CLOZE_LIMIT` — and the other 2
selections each add one to the "limit reached" skip tally (stated as
`2 ≤ skipped_limit` because the code keeps one global tally across words
and sides).  Event conservation makes the card count concrete: cards
emitted plus skips tallied equals two events per pair.  Finally, at every
point of the run — after any prefix of the input — every per-word usage
counter of either language is at most `CLOZE_LIMIT`. -/
theorem cloze_reuse_cap (pairs : List Pair) (ef ff : String → Nat)
    (ec fc : Finset String) (w : String) :
    (w ∈ ec →
      (pairs.filter (fun p => decide (minimize p.eng_words ef = w))).length = 5 →
      (build_clozes pairs ef ff ec fc).cloze_count_eng w = 3 ∧
      2 ≤ (build_clozes pairs ef ff ec fc).skipped_limit) ∧
    (w ∈ fc →
      (pairs.filter (fun p => decide (minimize p.fra_words ff = w))).length = 5 →
      (build_clozes pairs ef ff ec fc).cloze_count_fra w = 3 ∧
      2 ≤ (build_clozes pairs ef ff ec fc).skipped_limit) ∧
    ((build_clozes pairs ef ff ec fc).clozes.length +
        (build_clozes pairs ef ff ec fc).skipped_limit +
        (build_clozes pairs ef ff ec fc).skipped_freq = 2 * pairs.length) ∧
    (∀ l₁ l₂ : List Pair, pairs = l₁ ++ l₂ → ∀ v,
      (build_clozes l₁ ef ff ec fc).cloze_count_eng v ≤ CLOZE_LIMIT ∧
      (build_clozes l₁ ef ff ec fc).cloze_count_fra v ≤ CLOZE_LIMIT) := by
  refine ⟨?_, ?_, ?_, ?_⟩
  · intro hw hsel
    have h0 : (⟨[], fun _ => 0, fun _ => 0, 0, 0⟩ : BuildState).cloze_count_eng w ≤
        CLOZE_LIMIT := by
      simp [CLOZE_LIMIT]
    obtain ⟨hc, hs⟩ := go_count_spec ef ff ec fc w hw pairs _ h0
    rw [hsel] at hc hs
    constructor
    · rw [build_clozes, hc]; rfl
    · rw [build_clozes]
      simp only [CLOZE_LIMIT] at hs
      omega
  · intro hw hsel
    have h0 : (⟨[], fun _ => 0, fun _ => 0, 0, 0⟩ : BuildState).cloze_count_fra w ≤
        CLOZE_LIMIT := by
      simp [CLOZE_LIMIT]
    obtain ⟨hc, hs⟩ := go_count_spec_fra ef ff ec fc w hw pairs _ h0
    rw [hsel] at hc hs
    constructor
    · rw [build_clozes, hc]; rfl
    · rw [build_clozes]
      simp only [CLOZE_LIMIT] at hs
      omega
  · rw [build_clozes]
    have h := go_events ef ff ec fc pairs ⟨[], fun _ => 0, fun _ => 0, 0, 0⟩
    simpa using h
  · intro l₁ l₂ _ v
    exact go_counts_le ef ff ec fc l₁ _ (fun u => by simp [CLOZE_LIMIT]) v

/-- Witness for C3: five copies of a one-word pair; the English-side
instance with common set containing the English word, the French-side
instance with common set containing the French word, the emitted-card
count made concrete via event conservation (3 cards emitted), and a
counter bound after a proper prefix of the run. -/
theorem cloze_reuse_cap_witness :
    ((build_clozes (List.replicate 5 pairW) (fun _ => 0) (fun _ => 0) {"w"} ∅).cloze_count_eng
        "w" = 3 ∧
      2 ≤ (build_clozes (List.replicate 5 pairW) (fun _ => 0) (fun _ => 0)
            {"w"} ∅).skipped_limit) ∧
    ((build_clozes (List.replicate 5 pairW) (fun _ => 0) (fun _ => 0) ∅ {"y"}).cloze_count_fra
        "y" = 3 ∧
      2 ≤ (build_clozes (List.replicate 5 pairW) (fun _ => 0) (fun _ => 0)
            ∅ {"y"}).skipped_limit) ∧
    (build_clozes (List.replicate 5 pairW) (fun _ => 0) (fun _ => 0) {"w"} ∅).clozes.length +
        (build_clozes (List.replicate 5 pairW) (fun _ => 0) (fun _ => 0) {"w"} ∅).skipped_limit +
        (build_clozes (List.replicate 5 pairW) (fun _ => 0) (fun _ => 0) {"w"} ∅).skipped_freq
      = 2 * (List.replicate 5 pairW).length ∧
    (build_clozes (List.replicate 5 pairW) (fun _ => 0) (fun _ => 0) {"w"} ∅).clozes.length = 3 ∧
    (build_clozes (List.replicate 4 pairW) (fun _ => 0) (fun _ => 0) {"w"} ∅).cloze_count_eng
        "w" ≤ CLOZE_LIMIT := by
  obtain ⟨hA, -, hE, hP⟩ := cloze_reuse_cap (List.replicate 5 pairW) (fun _ => 0) (fun _ => 0)
    ({"w"} : Finset String) ∅ "w"
  obtain ⟨-, hB, -, -⟩ := cloze_reuse_cap (List.replicate 5 pairW) (fun _ => 0) (fun _ => 0)
    ∅ ({"y"} : Finset String) "y"
  exact ⟨hA (by decide) (by decide), hB (by decide) (by decide), hE, by decide,
    (hP (List.replicate 4 pairW) [pairW] (by decide) "w").1⟩

/-- C5.  Ranking postcondition: `sort_pairs` returns a permutation of its
input, sorted in descending order of
`score p = avg_freq p.fra_words tbl / p.fra_words.length`
(each earlier pair's score is at least each later pair's), and the sort
is stable: any two pairs appearing in order in the input with equal
scores appear in the same order in the output.  (Python's float division
is modelled by exact division in `ℚ`; the hypothesis restricts to inputs
Python's `sorted` key can evaluate without a zero division.) -/
theorem sort_pairs_spec (pairs : List Pair) (ff : String → Nat)
    (_hne : ∀ p ∈ pairs, p.fra_words ≠ []) :
    List.Perm (sort_pairs pairs ff) pairs ∧
    (sort_pairs pairs ff).Pairwise (fun a b => pairScore ff b ≤ pairScore ff a) ∧
    (∀ a b : Pair, pairScore ff a = pairScore ff b →
      List.Sublist [a, b] pairs → List.Sublist [a, b] (sort_pairs pairs ff)) := by
  unfold sort_pairs
  have htrans : ∀ a b c : Pair,
      decide (pairScore ff b ≤ pairScore ff a) = true →
      decide (pairScore ff c ≤ pairScore ff b) = true →
      decide (pairScore ff c ≤ pairScore ff a) = true := by
    intro a b c hab hbc
    simp only [decide_eq_true_eq] at hab hbc ⊢
    exact le_trans hbc hab
  have htotal : ∀ a b : Pair,
      (decide (pairScore ff b ≤ pairScore ff a) ||
        decide (pairScore ff a ≤ pairScore ff b)) = true := by
    intro a b
    simp only [Bool.or_eq_true, decide_eq_true_eq]
    exact le_total _ _
  refine ⟨List.mergeSort_perm pairs _, ?_, ?_⟩
  · exact (List.sorted_mergeSort htrans htotal pairs).imp
      (fun hab => of_decide_eq_true hab)
  · intro a b hsc hsub
    exact List.pair_sublist_mergeSort htrans htotal
      (decide_eq_true (le_of_eq hsc.symm)) hsub

/-- Witness for C5 at two equal-score pairs: stability keeps their input
order. -/
theorem sort_pairs_spec_witness :
    List.Sublist [pairQ1, pairQ2] (sort_pairs [pairQ1, pairQ2] (fun _ => 1)) :=
  (sort_pairs_spec [pairQ1, pairQ2] (fun _ => 1) (by decide)).2.2 pairQ1 pairQ2
    (by norm_num [pairScore, avg_freq, pairQ1, pairQ2]) (List.Sublist.refl _)

/-- The loader loop, from any accumulator, appends exactly the pairs its
per-record decision keeps, in input order. -/
theorem parse_go (rows : List Row) :
    ∀ acc : List Pair,
      rows.foldl
          (fun pairs row =>
            match rowPair row with
            | some p => pairs ++ [p]
            | none => pairs)
          acc
        = acc ++ rows.filterMap rowPair := by
  induction rows with
  | nil => intro acc; simp
  | cons row rest ih =>
    intro acc
    cases h : rowPair row with
    | none =>
      simp only [List.foldl_cons, List.filterMap_cons, h]
      exact ih acc
    | some p =>
      simp only [List.foldl_cons, List.filterMap_cons, h]
      rw [ih (acc ++ [p]), List.append_assoc]
      rfl

/-- Function `parse_sentences` retains records via `rowPair`, in input order. -/
theorem parse_sentences_eq (rows : List Row) :
    parse_sentences rows = rows.filterMap rowPair := by
  unfold parse_sentences
  simpa using parse_go rows []

/-- A record is kept exactly when its lowercased stripped French text is
not in the skip list, its French token list is within the word limit, and
both token lists are non-empty. -/
theorem rowPair_isSome_iff (row : Row) :
    (rowPair row).isSome = true ↔
      ((pyStrip row.fraField).toLower ∉ SKIP_LIST ∧
        (words (pyStrip row.fraField).toLower).length ≤ WORD_LIMIT ∧
        words (pyStrip row.engField).toLower ≠ [] ∧
        words (pyStrip row.fraField).toLower ≠ []) := by
  simp only [rowPair]
  split_ifs with h1 h2 h3
  · simp [h1]
  · simp only [Option.isSome_none, Bool.false_eq_true, false_iff]
    intro h
    exact absurd h.2.1 (by omega)
  · simp only [Option.isSome_none, Bool.false_eq_true, false_iff]
    intro h
    rcases Bool.or_eq_true_iff.mp h3 with he | hf
    · exact h.2.2.1 (List.isEmpty_iff.mp he)
    · exact h.2.2.2 (List.isEmpty_iff.mp hf)
  · simp only [Option.isSome_some, true_iff]
    refine ⟨h1, by omega, ?_, ?_⟩
    · intro he
      exact h3 (Bool.or_eq_true_iff.mpr (Or.inl (List.isEmpty_iff.mpr he)))
    · intro hf
      exact h3 (Bool.or_eq_true_iff.mpr (Or.inr (List.isEmpty_iff.mpr hf)))

/-- A kept pair satisfies the `Pair` invariants: non-empty token lists and
French length within the word limit. -/
theorem rowPair_some_inv {row : Row} {p : Pair} (h : rowPair row = some p) :
    p.eng_words ≠ [] ∧ p.fra_words ≠ [] ∧ p.fra_words.length ≤ WORD_LIMIT := by
  simp only [rowPair] at h
  split_ifs at h with h1 h2 h3
  · injection h with h'
    subst h'
    refine ⟨?_, ?_, ?_⟩
    · show words (pyStrip row.engField).toLower ≠ []
      intro he
      exact h3 (Bool.or_eq_true_iff.mpr (Or.inl (List.isEmpty_iff.mpr he)))
    · show words (pyStrip row.fraField).toLower ≠ []
      intro hf
      exact h3 (Bool.or_eq_true_iff.mpr (Or.inr (List.isEmpty_iff.mpr hf)))
    · show (words (pyStrip row.fraField).toLower).length ≤ WORD_LIMIT
      omega

/-- C7.  Loader postcondition: the retained pairs are exactly the records
passing the keep-decision, in input order (`filterMap`); a record is kept
iff its (trimmed, lowercased) French text is not in the skip list, its
French token list has at most `WORD_LIMIT` tokens, and both token lists
are non-empty; and every produced pair has non-empty token lists and at
most `WORD_LIMIT` French tokens. -/
theorem parse_sentences_spec (rows : List Row) :
    parse_sentences rows = rows.filterMap rowPair ∧
    (∀ row : Row,
      (rowPair row).isSome = true ↔
        ((pyStrip row.fraField).toLower ∉ SKIP_LIST ∧
          (words (pyStrip row.fraField).toLower).length ≤ WORD_LIMIT ∧
          words (pyStrip row.engField).toLower ≠ [] ∧
          words (pyStrip row.fraField).toLower ≠ [])) ∧
    (∀ p ∈ parse_sentences rows,
      p.eng_words ≠ [] ∧ p.fra_words ≠ [] ∧ p.fra_words.length ≤ WORD_LIMIT) := by
  refine ⟨parse_sentences_eq rows, fun row => rowPair_isSome_iff row, ?_⟩
  intro p hp
  rw [parse_sentences_eq rows] at hp
  obtain ⟨row, _, hsome⟩ := List.mem_filterMap.mp hp
  exact rowPair_some_inv hsome

/-- Witness for C7 at a concrete record. -/
theorem parse_sentences_spec_witness :
    parse_sentences [rowEx] = [rowEx].filterMap rowPair :=
  (parse_sentences_spec [rowEx]).1

/-- The frequency-table fold, from any table, adds the occurrence counts
of the flattened remaining sentences. -/
theorem lft_go :
    ∀ (sentences : List (List String)) (f : String → Nat) (t : String),
      (sentences.foldl (fun table sentence => fun w => table w + sentence.count w) f) t
        = f t + sentences.flatten.count t := by
  intro sentences
  induction sentences with
  | nil => intro f t; simp
  | cons s rest ih =>
    intro f t
    rw [List.foldl_cons, ih]
    simp only [List.flatten_cons, List.count_append]
    omega

/-- C8.  The frequency table counts every token occurrence across all
sentences, and is therefore invariant under permuting the sentence
list. -/
theorem language_frequency_table_spec :
    (∀ (sentences : List (List String)) (t : String),
        language_frequency_table sentences t = sentences.flatten.count t) ∧
    (∀ s₁ s₂ : List (List String), List.Perm s₁ s₂ →
        ∀ t, language_frequency_table s₁ t = language_frequency_table s₂ t) := by
  have hmain : ∀ (sentences : List (List String)) (t : String),
      language_frequency_table sentences t = sentences.flatten.count t := by
    intro sentences t
    unfold language_frequency_table
    rw [lft_go]
    exact Nat.zero_add _
  refine ⟨hmain, ?_⟩
  intro s₁ s₂ hperm t
  rw [hmain, hmain]
  exact hperm.flatten.count_eq t

/-- Witness for C8 at a concrete permutation. -/
theorem language_frequency_table_spec_witness :
    language_frequency_table [["a"], ["b"]] "a" =
      language_frequency_table [["b"], ["a"]] "a" :=
  language_frequency_table_spec.2 [["a"], ["b"]] [["b"], ["a"]] (by decide) "a"

/-- C9.  `most_common_words` returns at most `k` tokens, never more than
the number of distinct tokens in the table, and when the table has fewer
than `k` distinct tokens it returns all of them.  (The `Nodup` hypothesis
is the Python `dict`/`Counter` invariant: one entry per key.) -/
theorem most_common_words_spec (c : List (String × Nat)) (k : Nat)
    (hnd : (c.map Prod.fst).Nodup) :
    (most_common_words c k).card ≤ k ∧
    (most_common_words c k).card ≤ (c.map Prod.fst).toFinset.card ∧
    ((c.map Prod.fst).toFinset.card < k →
      most_common_words c k = (c.map Prod.fst).toFinset) := by
  have hperm : List.Perm (c.mergeSort (fun a b => decide (b.2 ≤ a.2))) c :=
    List.mergeSort_perm c _
  refine ⟨?_, ?_, ?_⟩
  · calc (most_common_words c k).card
        ≤ ((counterMostCommon c k).map Prod.fst).length := List.toFinset_card_le _
      _ = (counterMostCommon c k).length := List.length_map _ _
      _ ≤ k := by
          unfold counterMostCommon
          rw [List.length_take]
          exact min_le_left _ _
  · apply Finset.card_le_card
    intro x hx
    unfold most_common_words at hx
    rw [List.mem_toFinset] at hx ⊢
    obtain ⟨pr, hpr, rfl⟩ := List.mem_map.mp hx
    exact List.mem_map.mpr
      ⟨pr, hperm.subset (List.take_subset _ _ hpr), rfl⟩
  · intro hlt
    have h1 : (c.map Prod.fst).toFinset.card = c.length := by
      rw [List.toFinset_card_of_nodup hnd, List.length_map]
    have htake : counterMostCommon c k = c.mergeSort (fun a b => decide (b.2 ≤ a.2)) := by
      unfold counterMostCommon
      apply List.take_of_length_le
      rw [List.length_mergeSort]
      omega
    unfold most_common_words
    rw [htake]
    apply Finset.ext
    intro x
    rw [List.mem_toFinset, List.mem_toFinset]
    exact (hperm.map Prod.fst).mem_iff

/-- Witness for C9 at a two-entry table with cutoff 5. -/
theorem most_common_words_spec_witness :
    most_common_words [("a", 2), ("b", 1)] 5 =
      ([("a", 2), ("b", 1)].map Prod.fst).toFinset :=
  (most_common_words_spec [("a", 2), ("b", 1)] 5 (by decide)).2.2 (by decide)

/-- With enough fuel, the chunks of `groupFuel` concatenate back to the
input list. -/
theorem groupFuel_flatten {α : Type} (n : Nat) (hn : 0 < n) :
    ∀ (fuel : Nat) (l : List α), l.length ≤ fuel → (groupFuel n fuel l).flatten = l := by
  intro fuel
  induction fuel with
  | zero =>
    intro l hl
    cases l with
    | nil => rfl
    | cons c cs => simp at hl
  | succ fuel ih =>
    intro l hl
    cases l with
    | nil => rfl
    | cons c cs =>
      show ((c :: cs).take n :: groupFuel n fuel ((c :: cs).drop n)).flatten = c :: cs
      rw [List.flatten_cons,
        ih ((c :: cs).drop n) (by rw [List.length_drop]; omega)]
      exact List.take_append_drop n (c :: cs)

/-- With enough fuel, every chunk of `groupFuel` is non-empty and of
length at most `n`. -/
theorem groupFuel_chunks {α : Type} (n : Nat) (hn : 0 < n) :
    ∀ (fuel : Nat) (l : List α), l.length ≤ fuel →
      ∀ ch ∈ groupFuel n fuel l, ch ≠ [] ∧ ch.length ≤ n := by
  intro fuel
  induction fuel with
  | zero =>
    intro l hl ch hch
    cases l with
    | nil => simp [groupFuel] at hch
    | cons c cs => simp at hl
  | succ fuel ih =>
    intro l hl ch hch
    cases l with
    | nil => simp [groupFuel] at hch
    | cons c cs =>
      rw [show groupFuel n (fuel + 1) (c :: cs)
          = (c :: cs).take n :: groupFuel n fuel ((c :: cs).drop n) from rfl] at hch
      rcases List.mem_cons.mp hch with rfl | h
      · constructor
        · cases n with
          | zero => omega
          | succ m =>
            rw [List.take_succ_cons]
            exact List.cons_ne_nil _ _
        · rw [List.length_take]
          exact min_le_left _ _
      · exact ih _ (by rw [List.length_drop]; omega) ch h

/-- With enough fuel, every chunk of `groupFuel` except the last has
length exactly `n`. -/
theorem groupFuel_full {α : Type} (n : Nat) (hn : 0 < n) :
    ∀ (fuel : Nat) (l : List α), l.length ≤ fuel →
      ∀ ch ∈ (groupFuel n fuel l).dropLast, ch.length = n := by
  intro fuel
  induction fuel with
  | zero =>
    intro l hl ch hch
    cases l with
    | nil => simp [groupFuel] at hch
    | cons c cs => simp at hl
  | succ fuel ih =>
    intro l hl ch hch
    cases l with
    | nil => simp [groupFuel] at hch
    | cons c cs =>
      rw [show groupFuel n (fuel + 1) (c :: cs)
          = (c :: cs).take n :: groupFuel n fuel ((c :: cs).drop n) from rfl] at hch
      cases hrest : groupFuel n fuel ((c :: cs).drop n) with
      | nil =>
        rw [hrest] at hch
        simp at hch
      | cons r0 rs =>
        rw [hrest, List.dropLast_cons₂] at hch
        rcases List.mem_cons.mp hch with rfl | h
        · have hd : (c :: cs).drop n ≠ [] := by
            intro hd
            rw [hd] at hrest
            exact absurd hrest (by simp [groupFuel])
          have hlen : n ≤ (c :: cs).length := by
            by_contra hlt
            exact hd (List.drop_eq_nil_of_le (by omega))
          rw [List.length_take]
          omega
        · rw [← hrest] at h
          exact ih _ (by rw [List.length_drop]; omega) ch h

/-- C10.  Batch grouping round-trip: for `n > 0`, concatenating the
chunks of `group lst n` in order yields `lst`, every chunk is non-empty
with length at most `n`, and every chunk except possibly the last has
length exactly `n`. -/
theorem group_spec {α : Type} (lst : List α) (n : Nat) (h : 0 < n) :
    (group lst n).flatten = lst ∧
    (∀ ch ∈ group lst n, ch ≠ [] ∧ ch.length ≤ n) ∧
    (∀ ch ∈ (group lst n).dropLast, ch.length = n) := by
  unfold group
  rw [if_neg (by omega : ¬n = 0)]
  exact ⟨groupFuel_flatten n h lst.length lst (Nat.le_refl _),
    groupFuel_chunks n h lst.length lst (Nat.le_refl _),
    groupFuel_full n h lst.length lst (Nat.le_refl _)⟩

/-- Witness for C10 at a five-element list with batch size 2. -/
theorem group_spec_witness :
    (group [1, 2, 3, 4, 5] 2).flatten = [1, 2, 3, 4, 5] ∧
    (([1, 2] : List Nat) ≠ [] ∧ ([1, 2] : List Nat).length ≤ 2) := by
  obtain ⟨h1, h2, h3⟩ := group_spec [1, 2, 3, 4, 5] 2 (by decide)
  exact ⟨h1, h2 [1, 2] (by decide)⟩

end Script
